import Mathlib

/-!
Verification of the backtesting engine of the a2e_quant_pipeline repository
(src/engine.py) against its natural-language specification.

The engine is shallowly embedded: prices, quantities and capital are
modelled as rationals, timestamps as natural numbers, the positions
dictionary as an insertion-ordered association list, and the pandas/numpy
float scalars appearing in the metrics computation as an explicit type
with NaN and infinity constructors.
-/

namespace A2E

/-- Order types supported by the engine, from the OrderType enum. -/
inductive OrderType where
  | market
  | limit
deriving DecidableEq

/-- Order side; the source uses the strings "buy" and "sell". -/
inductive Side where
  | buy
  | sell
deriving DecidableEq

/-- A trading order, from the Order dataclass.  The price field is the
limit price and is ignored for market orders.  The timestamp field is
always present here; the defaulting of a missing timestamp to the wall
clock (Order.__post_init__) is modelled by resolveOrder below. -/
structure Order where
  symbol : String
  order_type : OrderType
  side : Side
  quantity : ℚ
  price : ℚ
  timestamp : ℕ
deriving DecidableEq

/-- A trading position, from the Position class. -/
structure Position where
  symbol : String
  quantity : ℚ
  avg_price : ℚ
  realized_pnl : ℚ
  unrealized_pnl : ℚ
deriving DecidableEq

/-- One record of the trade log, from the dict appended in _execute_order. -/
structure Trade where
  timestamp : ℕ
  symbol : String
  side : Side
  quantity : ℚ
  price : ℚ
  commission : ℚ
deriving DecidableEq

/-- One OHLCV bar (one row of the DataFrame consumed by
process_market_data, together with its index timestamp).  Only the
fields the engine reads are modelled. -/
structure Bar where
  timestamp : ℕ
  low : ℚ
  high : ℚ
  close : ℚ
deriving DecidableEq

/-- The mutable state of a BacktestEngine instance.  The positions
dictionary is modelled as an insertion-ordered association list, as in a
Python dict. -/
@[ext]
structure EngineState where
  initial_capital : ℚ
  current_capital : ℚ
  commission_rate : ℚ
  slippage : ℚ
  positions : List (String × Position)
  orders : List Order
  trades : List Trade
  equity_curve : List (ℕ × ℚ)
deriving DecidableEq

/-- Dictionary lookup on the positions association list. -/
def lookupPos : List (String × Position) → String → Option Position
  | [], _ => none
  | (k, p) :: rest, s => if k = s then some p else lookupPos rest s

/-- Dictionary update: replace the value at an existing key, or append a
new binding at the tail (Python dicts preserve insertion order). -/
def setPos : List (String × Position) → String → Position → List (String × Position)
  | [], s, p => [(s, p)]
  | (k, q) :: rest, s, p => if k = s then (k, p) :: rest else (k, q) :: setPos rest s p

/-- Dictionary deletion, as in the del statement of _execute_order. -/
def delPos : List (String × Position) → String → List (String × Position)
  | [], _ => []
  | (k, q) :: rest, s => if k = s then rest else (k, q) :: delPos rest s

/-- BacktestEngine.__init__ . -/
def initEngine (initial_capital commission_rate slippage : ℚ) : EngineState :=
  ⟨initial_capital, initial_capital, commission_rate, slippage, [], [], [], []⟩

/-- _execute_order: compute the commission, adjust capital by cost or
proceeds, update or create or delete the position, and append a trade
record. -/
def executeOrder (st : EngineState) (o : Order) (price : ℚ) : EngineState :=
  let commission := o.quantity * price * st.commission_rate
  let capital :=
    match o.side with
    | .buy => st.current_capital - (o.quantity * price + commission)
    | .sell => st.current_capital + (o.quantity * price - commission)
  let positions :=
    match lookupPos st.positions o.symbol with
    | some p =>
      match o.side with
      | .buy =>
        let total_cost := p.quantity * p.avg_price + o.quantity * price
        let q := p.quantity + o.quantity
        setPos st.positions o.symbol
          { p with quantity := q, avg_price := total_cost / q }
      | .sell =>
        let pnl := (price - p.avg_price) * o.quantity
        let p2 : Position :=
          { p with realized_pnl := p.realized_pnl + pnl,
                   quantity := p.quantity - o.quantity }
        if p2.quantity = 0 then delPos st.positions o.symbol
        else setPos st.positions o.symbol p2
    | none =>
      match o.side with
      | .buy => st.positions ++ [(o.symbol, ⟨o.symbol, o.quantity, price, 0, 0⟩)]
      | .sell => st.positions
  { st with
    current_capital := capital,
    positions := positions,
    trades := st.trades ++ [⟨o.timestamp, o.symbol, o.side, o.quantity, price, commission⟩] }

/-- The fill price of a market order in _execute_market_order:
close times (1 + slippage) for a buy, close times (1 - slippage) for a
sell. -/
def marketPrice (st : EngineState) (o : Order) (b : Bar) : ℚ :=
  b.close * (match o.side with
             | .buy => 1 + st.slippage
             | .sell => 1 - st.slippage)

/-- _execute_market_order . -/
def executeMarketOrder (st : EngineState) (o : Order) (b : Bar) : EngineState :=
  executeOrder st o (marketPrice st o b)

/-- _should_execute_limit_order: a limit buy triggers when the bar low is
at or below the limit price, a limit sell when the bar high is at or
above it. -/
def shouldExecuteLimitOrder (o : Order) (b : Bar) : Bool :=
  match o.side with
  | .buy => decide (b.low ≤ o.price)
  | .sell => decide (b.high ≥ o.price)

/-- _execute_limit_order: fills at exactly the limit price. -/
def executeLimitOrder (st : EngineState) (o : Order) (b : Bar) : EngineState :=
  executeOrder st o o.price

/-- The loop body of _process_orders: walk the pending orders in
submission order, executing every market order, executing each limit
order whose trigger condition holds, and collecting the untriggered
limit orders as the remaining queue. -/
def processOrdersAux (b : Bar) : EngineState → List Order → List Order →
    EngineState × List Order
  | st, [], remaining => (st, remaining)
  | st, o :: rest, remaining =>
    match o.order_type with
    | .market => processOrdersAux b (executeMarketOrder st o b) rest remaining
    | .limit =>
      if shouldExecuteLimitOrder o b then
        processOrdersAux b (executeLimitOrder st o b) rest remaining
      else
        processOrdersAux b st rest (remaining ++ [o])

/-- _process_orders . -/
def processOrders (st : EngineState) (b : Bar) : EngineState :=
  let res := processOrdersAux b st st.orders []
  { res.1 with orders := res.2 }

/-- _update_positions: recompute unrealized PnL of every position from
the bar close. -/
def updatePositions (st : EngineState) (b : Bar) : EngineState :=
  { st with positions := st.positions.map (fun kp =>
      (kp.1, { kp.2 with unrealized_pnl := kp.2.quantity * (b.close - kp.2.avg_price) })) }

/-- Total equity as computed by _record_equity: capital plus the sum over
open positions of quantity times average price (cost basis, not mark
price). -/
def totalEquity (st : EngineState) : ℚ :=
  st.current_capital + (st.positions.map (fun kp => kp.2.quantity * kp.2.avg_price)).sum

/-- _record_equity: append one equity sample. -/
def recordEquity (st : EngineState) (ts : ℕ) : EngineState :=
  { st with equity_curve := st.equity_curve ++ [(ts, totalEquity st)] }

/-- One iteration of the loop in process_market_data: mark to market,
process pending orders, record equity. -/
def processBar (st : EngineState) (b : Bar) : EngineState :=
  recordEquity (processOrders (updatePositions st b) b) b.timestamp

/-- process_market_data: fold the per-bar cycle over the bar stream. -/
def processMarketData (st : EngineState) (bars : List Bar) : EngineState :=
  bars.foldl processBar st

/-- An order as submitted by the caller: the timestamp may be absent, in
which case Order.__post_init__ stamps it with the wall-clock time. -/
structure OrderSubmission where
  symbol : String
  order_type : OrderType
  side : Side
  quantity : ℚ
  price : ℚ
  timestamp : Option ℕ
deriving DecidableEq

/-- Order.__post_init__: a submission without a timestamp receives the
current wall-clock reading, modelled by the clock argument. -/
def resolveOrder (clock : ℕ) (s : OrderSubmission) : Order :=
  ⟨s.symbol, s.order_type, s.side, s.quantity, s.price, s.timestamp.getD clock⟩

/-- A whole run: construct the engine, place the submitted orders
(stamping missing timestamps from the wall clock), then process the bar
stream. -/
def runBacktest (initial_capital commission_rate slippage : ℚ) (clock : ℕ)
    (subs : List OrderSubmission) (bars : List Bar) : EngineState :=
  processMarketData
    { initEngine initial_capital commission_rate slippage with
      orders := subs.map (resolveOrder clock) }
    bars

/-- Erase the timestamp of an order.  Order timestamps are copied into
trade records but never influence execution. -/
def scrubOrd (o : Order) : Order :=
  { o with timestamp := 0 }

/-- Erase the timestamp of a trade record. -/
def scrubTrade (t : Trade) : Trade :=
  { t with timestamp := 0 }

/-- Erase every order and trade timestamp of a state.  Equity samples
keep their timestamps: those come from the bar stream, not the wall
clock. -/
def scrubState (st : EngineState) : EngineState :=
  { st with orders := st.orders.map scrubOrd, trades := st.trades.map scrubTrade }

/-! ### The metrics computation (get_performance_metrics)

The metrics are computed with pandas and numpy floats, whose divisions
never raise: division of a nonzero value by zero yields a signed
infinity, zero by zero yields NaN, and the sample standard deviation of
fewer than two valid values is NaN.  Finite values are modelled exactly
as rationals; NaN and the two infinities are explicit constructors. -/

/-- A pandas or numpy float scalar: a finite rational, NaN, or a signed
infinity. -/
inductive PFloat where
  | fin (q : ℚ)
  | nan
  | inf
  | neginf
deriving DecidableEq

/-- Float division of two finite values, with the IEEE outcomes for a
zero divisor. -/
def pdivQ (a b : ℚ) : PFloat :=
  if b = 0 then (if a = 0 then .nan else if a > 0 then .inf else .neginf)
  else .fin (a / b)

/-- Subtract one, as applied to the total-return quotient; NaN and the
infinities absorb the subtraction. -/
def psubOne : PFloat → PFloat
  | .fin q => .fin (q - 1)
  | x => x

/-- One entry of Series.pct_change: the ratio of the current to the
previous value, minus one. -/
def pctRet (prev x : ℚ) : PFloat :=
  if prev = 0 then (if x = 0 then .nan else if x > 0 then .inf else .neginf)
  else .fin (x / prev - 1)

/-- Tail of Series.pct_change, carrying the previous value. -/
def pctChangeAux : ℚ → List ℚ → List PFloat
  | _, [] => []
  | prev, x :: rest => pctRet prev x :: pctChangeAux x rest

/-- Series.pct_change: the first entry is NaN, each later entry is the
period return against the previous entry. -/
def pctChange : List ℚ → List PFloat
  | [] => []
  | x :: rest => PFloat.nan :: pctChangeAux x rest

/-- The finite payload of a float scalar, if any. -/
def finVal : PFloat → Option ℚ
  | .fin q => some q
  | _ => none

/-- The finite entries of a float series (the values pandas keeps when
it skips NaN). -/
def validVals (xs : List PFloat) : List ℚ :=
  xs.filterMap finVal

/-- Whether a float series contains a signed infinity. -/
def hasInfVal (xs : List PFloat) : Bool :=
  xs.any (fun x => x == PFloat.inf || x == PFloat.neginf)

/-- The finite period returns of an equity curve. -/
def validRets (equity : List ℚ) : List ℚ :=
  validVals (pctChange equity)

/-- Series.mean of the period returns, over the valid entries (pandas
skips NaN by default). -/
def retMean (equity : List ℚ) : ℚ :=
  (validRets equity).sum / ((validRets equity).length : ℚ)

/-- The sample variance (delta degrees of freedom one, as in
Series.std) of the valid period returns. -/
def retVar (equity : List ℚ) : ℚ :=
  ((validRets equity).map (fun v => (v - retMean equity) ^ 2)).sum
    / (((validRets equity).length : ℚ) - 1)

/-- A float value that may carry a square root: the constructor val s q
represents the real number s times the square root of q.  This
represents the sharpe ratio sqrt(252) * mean / std exactly, since with
std = sqrt(var) > 0 that value equals sign(mean) * sqrt(252 * mean^2 / var). -/
inductive FloatRep where
  | nan
  | inf
  | neginf
  | val (sign : ℤ) (sq : ℚ)
deriving DecidableEq

/-- The sharpe ratio as the code computes it:
sqrt(252) * returns.mean() / returns.std().  If the returns contain an
infinity, or fewer than two valid entries exist, the standard deviation
is NaN and so is the quotient.  If the standard deviation is zero the
quotient is NaN for a zero mean and a signed infinity otherwise.
Otherwise the value is sign(mean) * sqrt(252 * mean^2 / var). -/
def sharpeRatioOf (equity : List ℚ) : FloatRep :=
  if hasInfVal (pctChange equity) then .nan
  else if (validRets equity).length < 2 then .nan
  else if retVar equity = 0 then
    (if retMean equity = 0 then .nan
     else if retMean equity > 0 then .inf
     else .neginf)
  else
    .val (if retMean equity > 0 then 1 else if retMean equity < 0 then -1 else 0)
      (252 * (retMean equity) ^ 2 / retVar equity)

/-- Running maximum of a series, carrying the maximum so far
(Series.cummax). -/
def cummaxAux : ℚ → List ℚ → List ℚ
  | _, [] => []
  | m, x :: rest => max m x :: cummaxAux (max m x) rest

/-- Series.cummax . -/
def cummax : List ℚ → List ℚ
  | [] => []
  | x :: rest => x :: cummaxAux x rest

/-- Series.max on a series of finite values: none on an empty series. -/
def seriesMax : List ℚ → Option ℚ
  | [] => none
  | x :: rest => some (rest.foldl max x)

/-- The max_drawdown value as the code computes it.  The source first
reduces (cummax - equity) to the scalar maximum and only then divides by
the cummax series, so the result is a whole series, one float per bar,
not a single number. -/
def maxDrawdownOf (equity : List ℚ) : List PFloat :=
  let cm := cummax equity
  match seriesMax (List.zipWith (fun a b => a - b) cm equity) with
  | none => []
  | some d => cm.map (fun c => pdivQ d c)

/-- Modelled from the spec: the max_drawdown formula the specification
states, the maximum over the bars of (running max minus equity) divided
by the running max, a single number.  Present only to compare with
maxDrawdownOf, which embeds the source. -/
def maxDrawdownSpec (equity : List ℚ) : ℚ :=
  (seriesMax (List.zipWith (fun c e => (c - e) / c) (cummax equity) equity)).getD 0

/-- The win rate: the fraction of period-return entries that compare
strictly greater than zero (a NaN entry compares false, an infinity
true). -/
def winRateOf (equity : List ℚ) : ℚ :=
  (((pctChange equity).filter (fun x =>
      match x with
      | .fin q => decide (q > 0)
      | .inf => true
      | _ => false)).length : ℚ) / ((pctChange equity).length : ℚ)

/-- The metrics record returned by get_performance_metrics.  The sharpe
field models the sharpe_ratio entry and the drawdown field the
max_drawdown entry of the returned dictionary. -/
structure Metrics where
  total_return : PFloat
  sharpe : FloatRep
  drawdown : List PFloat
  win_rate : ℚ
  total_trades : ℕ
deriving DecidableEq

/-- The equity column of the equity-curve DataFrame. -/
def equityVals (st : EngineState) : List ℚ :=
  st.equity_curve.map Prod.snd

/-- get_performance_metrics: an empty equity curve yields the empty
dictionary, modelled as none; otherwise the five metrics are computed
from the equity column, the initial capital and the trade log. -/
def getPerformanceMetrics (st : EngineState) : Option Metrics :=
  if st.equity_curve.isEmpty then none
  else some
    { total_return := psubOne (pdivQ ((equityVals st).getLastD 0) st.initial_capital),
      sharpe := sharpeRatioOf (equityVals st),
      drawdown := maxDrawdownOf (equityVals st),
      win_rate := winRateOf (equityVals st),
      total_trades := st.trades.length }

/-! ### Structural facts about order processing -/

/-- The fill price an order obtains on a bar: the slippage-adjusted
close for a market order, the limit price for a limit order. -/
def fillPrice (slip : ℚ) (b : Bar) (o : Order) : ℚ :=
  match o.order_type with
  | .market => b.close * (match o.side with | .buy => 1 + slip | .sell => 1 - slip)
  | .limit => o.price

/-- The trade record an order produces when it fills on a bar. -/
def mkTrade (rate slip : ℚ) (b : Bar) (o : Order) : Trade :=
  ⟨o.timestamp, o.symbol, o.side, o.quantity, fillPrice slip b o,
   o.quantity * fillPrice slip b o * rate⟩

/-- Whether an order stays in the queue after a bar: only an untriggered
limit order does. -/
def keepsOrder (b : Bar) (o : Order) : Bool :=
  match o.order_type with
  | .market => false
  | .limit => !shouldExecuteLimitOrder o b

/-- Whether an order fills on a bar: every market order, and each limit
order whose trigger condition holds. -/
def fillsOrder (b : Bar) (o : Order) : Bool :=
  match o.order_type with
  | .market => true
  | .limit => shouldExecuteLimitOrder o b

theorem executeOrder_initial_capital (st : EngineState) (o : Order) (price : ℚ) :
    (executeOrder st o price).initial_capital = st.initial_capital := rfl

theorem executeOrder_commission_rate (st : EngineState) (o : Order) (price : ℚ) :
    (executeOrder st o price).commission_rate = st.commission_rate := rfl

theorem executeOrder_slippage (st : EngineState) (o : Order) (price : ℚ) :
    (executeOrder st o price).slippage = st.slippage := rfl

theorem executeOrder_orders (st : EngineState) (o : Order) (price : ℚ) :
    (executeOrder st o price).orders = st.orders := rfl

theorem executeOrder_equity_curve (st : EngineState) (o : Order) (price : ℚ) :
    (executeOrder st o price).equity_curve = st.equity_curve := rfl

theorem executeOrder_trades (st : EngineState) (o : Order) (price : ℚ) :
    (executeOrder st o price).trades
      = st.trades ++ [⟨o.timestamp, o.symbol, o.side, o.quantity, price,
                       o.quantity * price * st.commission_rate⟩] := rfl

/-- The queue left behind by the scan loop: the remaining orders are the
accumulator followed by exactly the untriggered limit orders, in their
original order. -/
theorem processOrdersAux_snd (b : Bar) (os : List Order) :
    ∀ (st : EngineState) (rem : List Order),
    (processOrdersAux b st os rem).2 = rem ++ os.filter (keepsOrder b) := by
  induction os with
  | nil => intro st rem; simp [processOrdersAux]
  | cons o rest ih =>
    intro st rem
    cases ho : o.order_type with
    | market => simp [processOrdersAux, ho, keepsOrder, ih]
    | limit =>
      by_cases ht : shouldExecuteLimitOrder o b
      · simp [processOrdersAux, ho, ht, keepsOrder, ih]
      · simp [processOrdersAux, ho, ht, keepsOrder, ih]

/-- The scan loop never touches the configuration fields, the stored
order list, or the equity curve. -/
theorem processOrdersAux_fields (b : Bar) (os : List Order) :
    ∀ (st : EngineState) (rem : List Order),
    (processOrdersAux b st os rem).1.initial_capital = st.initial_capital ∧
    (processOrdersAux b st os rem).1.commission_rate = st.commission_rate ∧
    (processOrdersAux b st os rem).1.slippage = st.slippage ∧
    (processOrdersAux b st os rem).1.orders = st.orders ∧
    (processOrdersAux b st os rem).1.equity_curve = st.equity_curve := by
  induction os with
  | nil => intro st rem; simp [processOrdersAux]
  | cons o rest ih =>
    intro st rem
    cases ho : o.order_type with
    | market =>
      simpa [processOrdersAux, ho, executeMarketOrder, executeOrder_initial_capital,
             executeOrder_commission_rate, executeOrder_slippage, executeOrder_orders,
             executeOrder_equity_curve] using ih (executeMarketOrder st o b) rem
    | limit =>
      by_cases ht : shouldExecuteLimitOrder o b
      · simpa [processOrdersAux, ho, ht, executeLimitOrder, executeOrder_initial_capital,
               executeOrder_commission_rate, executeOrder_slippage, executeOrder_orders,
               executeOrder_equity_curve] using ih (executeLimitOrder st o b) rem
      · simpa [processOrdersAux, ho, ht] using ih st (rem ++ [o])

/-- The trades appended by the scan loop: one trade per filled order, in
scan order, each a pure function of the order, the bar and the engine
rates. -/
theorem processOrdersAux_trades (b : Bar) (os : List Order) :
    ∀ (st : EngineState) (rem : List Order),
    (processOrdersAux b st os rem).1.trades
      = st.trades ++ (os.filter (fillsOrder b)).map
          (mkTrade st.commission_rate st.slippage b) := by
  induction os with
  | nil => intro st rem; simp [processOrdersAux]
  | cons o rest ih =>
    intro st rem
    cases ho : o.order_type with
    | market =>
      have h := ih (executeMarketOrder st o b) rem
      rw [executeMarketOrder] at h
      simp [executeOrder_trades, executeOrder_commission_rate, executeOrder_slippage,
            marketPrice] at h
      simp [processOrdersAux, ho, fillsOrder, executeMarketOrder, marketPrice, h, mkTrade,
            fillPrice]
    | limit =>
      by_cases ht : shouldExecuteLimitOrder o b
      · have h := ih (executeLimitOrder st o b) rem
        rw [executeLimitOrder] at h
        simp [executeOrder_trades, executeOrder_commission_rate, executeOrder_slippage] at h
        simp [processOrdersAux, ho, ht, fillsOrder, executeLimitOrder, h, mkTrade, fillPrice]
      · simp [processOrdersAux, ho, ht, fillsOrder, ih]

theorem processOrders_orders (st : EngineState) (b : Bar) :
    (processOrders st b).orders = st.orders.filter (keepsOrder b) := by
  simp [processOrders, processOrdersAux_snd]

theorem processOrders_trades (st : EngineState) (b : Bar) :
    (processOrders st b).trades
      = st.trades ++ (st.orders.filter (fillsOrder b)).map
          (mkTrade st.commission_rate st.slippage b) := by
  simpa [processOrders] using processOrdersAux_trades b st.orders st []

theorem processOrders_equity_curve (st : EngineState) (b : Bar) :
    (processOrders st b).equity_curve = st.equity_curve := by
  simpa [processOrders] using (processOrdersAux_fields b st.orders st []).2.2.2.2

/-! ### Association-list dictionary lemmas -/

theorem lookupPos_setPos_self (s : String) (p : Position) :
    ∀ ps : List (String × Position), lookupPos (setPos ps s p) s = some p := by
  intro ps
  induction ps with
  | nil => simp [setPos, lookupPos]
  | cons kp rest ih =>
    by_cases hk : kp.1 = s
    · simp [setPos, lookupPos, hk]
    · simp [setPos, lookupPos, hk, ih]

theorem lookupPos_eq_none_of_not_mem (s : String) :
    ∀ ps : List (String × Position), s ∉ ps.map Prod.fst → lookupPos ps s = none := by
  intro ps
  induction ps with
  | nil => intro _; rfl
  | cons kp rest ih =>
    intro h
    simp only [List.map_cons, List.mem_cons] at h
    push_neg at h
    have hk : kp.1 ≠ s := fun he => h.1 he.symm
    simp [lookupPos, hk, ih h.2]

theorem lookupPos_delPos_self (s : String) :
    ∀ ps : List (String × Position), (ps.map Prod.fst).Nodup →
    lookupPos (delPos ps s) s = none := by
  intro ps
  induction ps with
  | nil => intro _; rfl
  | cons kp rest ih =>
    obtain ⟨k, q⟩ := kp
    intro hnd
    simp only [List.map_cons, List.nodup_cons] at hnd
    by_cases hk : k = s
    · subst hk
      simp only [delPos, if_pos rfl]
      exact lookupPos_eq_none_of_not_mem k rest hnd.1
    · simp [delPos, hk, lookupPos, ih hnd.2]

theorem executeOrder_capital_buy (st : EngineState) (o : Order) (price : ℚ)
    (hs : o.side = Side.buy) :
    (executeOrder st o price).current_capital
      = st.current_capital - (o.quantity * price
          + o.quantity * price * st.commission_rate) := by
  simp [executeOrder, hs]

theorem executeOrder_capital_sell (st : EngineState) (o : Order) (price : ℚ)
    (hs : o.side = Side.sell) :
    (executeOrder st o price).current_capital
      = st.current_capital + (o.quantity * price
          - o.quantity * price * st.commission_rate) := by
  simp [executeOrder, hs]

/-! ### The claims -/

/-- C1: a market buy of quantity Q against a bar with close C fills at
price C * (1 + S), pays commission Q * C * (1+S) * R, and decreases
capital by exactly the cost plus the commission; a market sell fills at
C * (1 - S) and increases capital by the proceeds minus the commission.
The fill is unconditional and whole (the trade records the full order
quantity) on the first bar processed while the order is pending: no
market order ever remains in the queue after a bar. -/
theorem C1_market_order_execution (st : EngineState) (o : Order) (b : Bar)
    (hm : o.order_type = OrderType.market) :
    (o.side = Side.buy →
      (executeMarketOrder st o b).trades
        = st.trades ++ [⟨o.timestamp, o.symbol, Side.buy, o.quantity,
            b.close * (1 + st.slippage),
            o.quantity * (b.close * (1 + st.slippage)) * st.commission_rate⟩] ∧
      (executeMarketOrder st o b).current_capital
        = st.current_capital - (o.quantity * (b.close * (1 + st.slippage))
            + o.quantity * (b.close * (1 + st.slippage)) * st.commission_rate)) ∧
    (o.side = Side.sell →
      (executeMarketOrder st o b).trades
        = st.trades ++ [⟨o.timestamp, o.symbol, Side.sell, o.quantity,
            b.close * (1 - st.slippage),
            o.quantity * (b.close * (1 - st.slippage)) * st.commission_rate⟩] ∧
      (executeMarketOrder st o b).current_capital
        = st.current_capital + (o.quantity * (b.close * (1 - st.slippage))
            - o.quantity * (b.close * (1 - st.slippage)) * st.commission_rate)) ∧
    (o ∈ st.orders → o ∉ (processOrders st b).orders) := by
  refine ⟨?_, ?_, ?_⟩
  · intro hs
    constructor
    · rw [executeMarketOrder, executeOrder_trades, marketPrice, hs]
    · rw [executeMarketOrder, executeOrder_capital_buy st o _ hs, marketPrice, hs]
  · intro hs
    constructor
    · rw [executeMarketOrder, executeOrder_trades, marketPrice, hs]
    · rw [executeMarketOrder, executeOrder_capital_sell st o _ hs, marketPrice, hs]
  · intro _ hmem
    rw [processOrders_orders] at hmem
    have := (List.mem_filter.mp hmem).2
    simp [keepsOrder, hm] at this

/-- Witness for C1: a buy of 2 units on a bar closing at 10, with
slippage 1/10 and commission rate 1/100, fills at 11 with commission
11/50, leaves capital 48889/50, and leaves the queue empty of the
order. -/
theorem C1_market_order_execution_witness :
    (executeMarketOrder ⟨1000, 1000, 1/100, 1/10, [], [⟨"A", .market, .buy, 2, 0, 5⟩], [], []⟩
        ⟨"A", .market, .buy, 2, 0, 5⟩ ⟨3, 9, 11, 10⟩).trades
      = [⟨5, "A", Side.buy, 2, 11, 11/50⟩] ∧
    (executeMarketOrder ⟨1000, 1000, 1/100, 1/10, [], [⟨"A", .market, .buy, 2, 0, 5⟩], [], []⟩
        ⟨"A", .market, .buy, 2, 0, 5⟩ ⟨3, 9, 11, 10⟩).current_capital = 48889/50 ∧
    (⟨"A", .market, .buy, 2, 0, 5⟩ : Order)
      ∉ (processOrders ⟨1000, 1000, 1/100, 1/10, [], [⟨"A", .market, .buy, 2, 0, 5⟩], [], []⟩
          ⟨3, 9, 11, 10⟩).orders := by
  have h := C1_market_order_execution
    ⟨1000, 1000, 1/100, 1/10, [], [⟨"A", .market, .buy, 2, 0, 5⟩], [], []⟩
    ⟨"A", .market, .buy, 2, 0, 5⟩ ⟨3, 9, 11, 10⟩ rfl
  refine ⟨?_, ?_, h.2.2 (by simp)⟩
  · rw [(h.1 rfl).1]; norm_num
  · rw [(h.1 rfl).2]; norm_num

/-- C2: average cost changes only on a buy fill, by the weighted-average
rule; a sell fill leaves average cost unchanged, reduces the quantity
and accumulates (fill price - average cost) * quantity into realized
PnL, the position being deleted exactly when the quantity reaches zero.
Buying 100 at 50 and then 100 at 60 yields average cost 55 and quantity
200. -/
theorem C2_average_cost_update (st : EngineState) (o : Order) (price : ℚ) (p : Position)
    (hp : lookupPos st.positions o.symbol = some p) :
    (o.side = Side.buy → p.quantity + o.quantity ≠ 0 →
      lookupPos (executeOrder st o price).positions o.symbol
        = some { p with quantity := p.quantity + o.quantity,
                        avg_price := (p.quantity * p.avg_price + o.quantity * price)
                                       / (p.quantity + o.quantity) }) ∧
    (o.side = Side.sell → p.quantity - o.quantity ≠ 0 →
      lookupPos (executeOrder st o price).positions o.symbol
        = some { p with quantity := p.quantity - o.quantity,
                        realized_pnl := p.realized_pnl + (price - p.avg_price) * o.quantity }) ∧
    (o.side = Side.sell → p.quantity - o.quantity = 0 →
      (st.positions.map Prod.fst).Nodup →
      lookupPos (executeOrder st o price).positions o.symbol = none) ∧
    lookupPos (executeOrder (executeOrder (initEngine 1000000 0 0)
        ⟨"A", .market, .buy, 100, 0, 0⟩ 50)
        ⟨"A", .market, .buy, 100, 0, 1⟩ 60).positions "A"
      = some ⟨"A", 200, 55, 0, 0⟩ := by
  refine ⟨?_, ?_, ?_,
    by norm_num [executeOrder, initEngine, lookupPos, setPos, delPos]⟩
  · intro hs _
    simp [executeOrder, hs, hp, lookupPos_setPos_self]
  · intro hs hq
    simp [executeOrder, hs, hp, hq, lookupPos_setPos_self]
  · intro hs hq hnd
    simp [executeOrder, hs, hp, hq, lookupPos_delPos_self _ _ hnd]

/-- Witness for C2: holding 3 units at average cost 10, a buy of 2 at 20
moves the average cost to 14 and the quantity to 5. -/
theorem C2_average_cost_update_witness :
    lookupPos (executeOrder ⟨1000, 1000, 0, 0, [("A", ⟨"A", 3, 10, 0, 0⟩)], [], [], []⟩
        ⟨"A", .market, .buy, 2, 0, 0⟩ 20).positions "A"
      = some ⟨"A", 5, 14, 0, 0⟩ := by
  have h := (C2_average_cost_update
    ⟨1000, 1000, 0, 0, [("A", ⟨"A", 3, 10, 0, 0⟩)], [], [], []⟩
    ⟨"A", .market, .buy, 2, 0, 0⟩ 20 ⟨"A", 3, 10, 0, 0⟩ (by decide)).1 rfl (by norm_num)
  rw [h]
  norm_num [Position.mk.injEq]

/-- C4 counterexample: the code never rejects an oversell.  Holding 5
units of a symbol at average cost 10, a queued market sell of 10 units
executes on the next bar (close 20, zero commission and slippage): one
trade is recorded, the position is left with quantity -5, and capital is
credited with the full proceeds.  No InsufficientPositionError and no
short-selling configuration option exist in the code. -/
theorem C4_oversell_counterexample :
    (processOrders ⟨1000, 1000, 0, 0, [("A", ⟨"A", 5, 10, 0, 0⟩)],
        [⟨"A", .market, .sell, 10, 0, 2⟩], [], []⟩ ⟨3, 20, 20, 20⟩).trades.length = 1 ∧
    lookupPos (processOrders ⟨1000, 1000, 0, 0, [("A", ⟨"A", 5, 10, 0, 0⟩)],
        [⟨"A", .market, .sell, 10, 0, 2⟩], [], []⟩ ⟨3, 20, 20, 20⟩).positions "A"
      = some ⟨"A", -5, 10, 100, 0⟩ ∧
    (processOrders ⟨1000, 1000, 0, 0, [("A", ⟨"A", 5, 10, 0, 0⟩)],
        [⟨"A", .market, .sell, 10, 0, 2⟩], [], []⟩ ⟨3, 20, 20, 20⟩).current_capital = 1200 ∧
    (processOrders ⟨1000, 1000, 0, 0, [("A", ⟨"A", 5, 10, 0, 0⟩)],
        [⟨"A", .market, .sell, 10, 0, 2⟩], [], []⟩ ⟨3, 20, 20, 20⟩).orders = [] := by
  norm_num [processOrders, processOrdersAux, executeOrder, executeMarketOrder, marketPrice,
            lookupPos, setPos, delPos]

/-- C4 amended: a sell whose quantity exceeds the held quantity is not
rejected; it executes like any other sell, leaving the position with a
negative quantity (the position is deleted only when the quantity lands
exactly on zero), accumulating realized PnL over the full sold quantity,
crediting the full proceeds minus commission, and appending a trade. -/
theorem C4_oversell_executes (st : EngineState) (o : Order) (price : ℚ) (p : Position)
    (hs : o.side = Side.sell)
    (hp : lookupPos st.positions o.symbol = some p)
    (hq : p.quantity < o.quantity) :
    lookupPos (executeOrder st o price).positions o.symbol
      = some { p with quantity := p.quantity - o.quantity,
                      realized_pnl := p.realized_pnl + (price - p.avg_price) * o.quantity } ∧
    (executeOrder st o price).current_capital
      = st.current_capital + (o.quantity * price - o.quantity * price * st.commission_rate) ∧
    (executeOrder st o price).trades
      = st.trades ++ [⟨o.timestamp, o.symbol, Side.sell, o.quantity, price,
                       o.quantity * price * st.commission_rate⟩] := by
  have hne : p.quantity - o.quantity ≠ 0 := sub_ne_zero.mpr (ne_of_lt hq)
  refine ⟨?_, executeOrder_capital_sell st o price hs, ?_⟩
  · simp [executeOrder, hs, hp, hne, lookupPos_setPos_self]
  · rw [executeOrder_trades, hs]

/-- Witness for C4 amended: selling 10 units while holding 5 at cost 10,
at price 20, leaves quantity -5, realized PnL 100 and capital 1200. -/
theorem C4_oversell_executes_witness :
    lookupPos (executeOrder ⟨1000, 1000, 0, 0, [("A", ⟨"A", 5, 10, 0, 0⟩)], [], [], []⟩
        ⟨"A", .market, .sell, 10, 0, 2⟩ 20).positions "A" = some ⟨"A", -5, 10, 100, 0⟩ ∧
    (executeOrder ⟨1000, 1000, 0, 0, [("A", ⟨"A", 5, 10, 0, 0⟩)], [], [], []⟩
        ⟨"A", .market, .sell, 10, 0, 2⟩ 20).current_capital = 1200 := by
  have h := C4_oversell_executes
    ⟨1000, 1000, 0, 0, [("A", ⟨"A", 5, 10, 0, 0⟩)], [], [], []⟩
    ⟨"A", .market, .sell, 10, 0, 2⟩ 20 ⟨"A", 5, 10, 0, 0⟩ rfl (by decide) (by norm_num)
  refine ⟨?_, ?_⟩
  · rw [h.1]; norm_num [Position.mk.injEq]
  · rw [h.2.1]; norm_num

/-- C10: a sell on a symbol with no position in the ledger still
executes without error: capital is credited with quantity * price minus
the commission, a trade record is appended, and the positions dictionary
is left entirely unchanged. -/
theorem C10_sell_without_position (st : EngineState) (o : Order) (price : ℚ)
    (hs : o.side = Side.sell)
    (hp : lookupPos st.positions o.symbol = none) :
    (executeOrder st o price).current_capital
      = st.current_capital + (o.quantity * price - o.quantity * price * st.commission_rate) ∧
    (executeOrder st o price).positions = st.positions ∧
    (executeOrder st o price).trades
      = st.trades ++ [⟨o.timestamp, o.symbol, Side.sell, o.quantity, price,
                       o.quantity * price * st.commission_rate⟩] := by
  refine ⟨executeOrder_capital_sell st o price hs, ?_, ?_⟩
  · simp [executeOrder, hs, hp]
  · rw [executeOrder_trades, hs]

/-- Witness for C10: selling 4 units of an unheld symbol at price 25
with commission rate 1/100 credits 99 and leaves the ledger empty. -/
theorem C10_sell_without_position_witness :
    (executeOrder ⟨500, 500, 1/100, 0, [], [], [], []⟩
        ⟨"Z", .market, .sell, 4, 0, 9⟩ 25).current_capital = 599 ∧
    (executeOrder ⟨500, 500, 1/100, 0, [], [], [], []⟩
        ⟨"Z", .market, .sell, 4, 0, 9⟩ 25).positions = [] ∧
    (executeOrder ⟨500, 500, 1/100, 0, [], [], [], []⟩
        ⟨"Z", .market, .sell, 4, 0, 9⟩ 25).trades = [⟨9, "Z", Side.sell, 4, 25, 1⟩] := by
  have h := C10_sell_without_position ⟨500, 500, 1/100, 0, [], [], [], []⟩
    ⟨"Z", .market, .sell, 4, 0, 9⟩ 25 rfl rfl
  refine ⟨?_, h.2.1, ?_⟩
  · rw [h.1]; norm_num
  · rw [h.2.2]; norm_num

/-- C3: a limit buy with limit price L fills on a bar exactly when the
bar low is at or below L, and a limit sell exactly when the bar high is
at or above L; the fill price is exactly the limit price, with no price
improvement.  An untriggered limit order leaves the engine state
entirely unchanged and remains in the queue for future bars, with no
expiry. -/
theorem C3_limit_order_semantics (st : EngineState) (o : Order) (b : Bar)
    (hl : o.order_type = OrderType.limit) :
    (o.side = Side.buy → (shouldExecuteLimitOrder o b = true ↔ b.low ≤ o.price)) ∧
    (o.side = Side.sell → (shouldExecuteLimitOrder o b = true ↔ b.high ≥ o.price)) ∧
    (st.orders = [o] → shouldExecuteLimitOrder o b = true →
      (processOrders st b).orders = [] ∧
      (processOrders st b).trades
        = st.trades ++ [⟨o.timestamp, o.symbol, o.side, o.quantity, o.price,
                         o.quantity * o.price * st.commission_rate⟩]) ∧
    (st.orders = [o] → shouldExecuteLimitOrder o b = false → processOrders st b = st) ∧
    (o ∈ st.orders → shouldExecuteLimitOrder o b = false →
      o ∈ (processOrders st b).orders) := by
  refine ⟨?_, ?_, ?_, ?_, ?_⟩
  · intro hs; simp [shouldExecuteLimitOrder, hs]
  · intro hs; simp [shouldExecuteLimitOrder, hs]
  · intro horders ht
    constructor
    · simp [processOrders_orders, horders, keepsOrder, hl, ht]
    · simp [processOrders_trades, horders, fillsOrder, hl, ht, mkTrade, fillPrice]
  · intro horders ht
    have haux : processOrdersAux b st st.orders [] = (st, [o]) := by
      rw [horders]; simp [processOrdersAux, hl, ht]
    simp only [processOrders, haux]
    rw [← horders]
  · intro hmem ht
    rw [processOrders_orders]
    exact List.mem_filter.mpr ⟨hmem, by simp [keepsOrder, hl, ht]⟩

/-- Witness for C3: a limit buy at 5 does not trigger on a bar with low
6 and the state is unchanged; it triggers on a bar with low 4 and fills
at exactly 5. -/
theorem C3_limit_order_semantics_witness :
    processOrders ⟨100, 100, 0, 0, [], [⟨"A", .limit, .buy, 1, 5, 0⟩], [], []⟩ ⟨0, 6, 7, 6⟩
      = ⟨100, 100, 0, 0, [], [⟨"A", .limit, .buy, 1, 5, 0⟩], [], []⟩ ∧
    (processOrders ⟨100, 100, 0, 0, [], [⟨"A", .limit, .buy, 1, 5, 0⟩], [], []⟩
        ⟨1, 4, 7, 6⟩).trades = [⟨0, "A", Side.buy, 1, 5, 0⟩] := by
  constructor
  · exact (C3_limit_order_semantics _ ⟨"A", .limit, .buy, 1, 5, 0⟩ ⟨0, 6, 7, 6⟩ rfl).2.2.2.1
      rfl (by norm_num [shouldExecuteLimitOrder])
  · have h := ((C3_limit_order_semantics
      ⟨100, 100, 0, 0, [], [⟨"A", .limit, .buy, 1, 5, 0⟩], [], []⟩
      ⟨"A", .limit, .buy, 1, 5, 0⟩ ⟨1, 4, 7, 6⟩ rfl).2.2.1
        rfl (by norm_num [shouldExecuteLimitOrder])).2
    rw [h]; norm_num

/-- C5 counterexample: order scanning does not filter by symbol.  With
pending market orders on the two distinct symbols A and B, processing a
single bar executes both and empties the queue, so whichever symbol the
bar is for, an order on a different symbol was executed rather than left
queued untouched (the embedded bar carries no symbol field at all, as in
the source, whose bar rows are plain OHLCV rows). -/
theorem C5_symbol_filter_counterexample :
    (processOrders ⟨1000, 1000, 0, 0, [],
        [⟨"A", .market, .buy, 1, 0, 0⟩, ⟨"B", .market, .buy, 1, 0, 1⟩], [], []⟩
        ⟨0, 10, 10, 10⟩).trades.map Trade.symbol = ["A", "B"] ∧
    (processOrders ⟨1000, 1000, 0, 0, [],
        [⟨"A", .market, .buy, 1, 0, 0⟩, ⟨"B", .market, .buy, 1, 0, 1⟩], [], []⟩
        ⟨0, 10, 10, 10⟩).orders = [] ∧
    ("A" : String) ≠ "B" := by
  refine ⟨?_, ?_, by decide⟩
  · norm_num [processOrders, processOrdersAux, executeOrder, executeMarketOrder, marketPrice,
              lookupPos, setPos, delPos]
  · norm_num [processOrders, processOrdersAux, executeOrder, executeMarketOrder, marketPrice,
              lookupPos, setPos, delPos]

/-- C5 amended: the scan of the order queue on a bar processes every
pending order regardless of symbol, in original submission order: every
market order and every triggered limit order fills (each trade a pure
function of the order, the bar and the engine rates, appended in scan
order), and exactly the untriggered limit orders remain queued, in their
original order.  Bars carry no symbol and no symbol matching occurs. -/
theorem C5_scan_processes_all_orders (st : EngineState) (b : Bar) :
    (processOrders st b).orders = st.orders.filter (keepsOrder b) ∧
    (processOrders st b).trades
      = st.trades ++ (st.orders.filter (fillsOrder b)).map
          (mkTrade st.commission_rate st.slippage b) :=
  ⟨processOrders_orders st b, processOrders_trades st b⟩

/-- C6: each processed bar appends exactly one equity sample, carrying
the bar timestamp and the value capital plus the sum over open positions
of quantity times average cost; a whole run appends exactly one sample
per bar, and with no open positions the recorded equity equals capital
exactly. -/
theorem C6_equity_snapshot (st : EngineState) (b : Bar) (bars : List Bar) :
    (processBar st b).equity_curve
      = st.equity_curve ++ [(b.timestamp,
          (processOrders (updatePositions st b) b).current_capital
            + ((processOrders (updatePositions st b) b).positions.map
                (fun kp => kp.2.quantity * kp.2.avg_price)).sum)] ∧
    (processMarketData st bars).equity_curve.length
      = st.equity_curve.length + bars.length ∧
    (∀ st2 : EngineState, st2.positions = [] →
      totalEquity st2 = st2.current_capital) := by
  refine ⟨?_, ?_, ?_⟩
  · simp [processBar, recordEquity, totalEquity, processOrders_equity_curve, updatePositions]
  · induction bars generalizing st with
    | nil => simp [processMarketData]
    | cons c cs ih =>
      have hone : (processBar st c).equity_curve.length = st.equity_curve.length + 1 := by
        simp [processBar, recordEquity, processOrders_equity_curve, updatePositions]
      calc (processMarketData st (c :: cs)).equity_curve.length
          = (processMarketData (processBar st c) cs).equity_curve.length := rfl
        _ = (processBar st c).equity_curve.length + cs.length := ih (processBar st c)
        _ = st.equity_curve.length + (c :: cs).length := by rw [hone]; simp; ring
  · intro st2 h2
    simp [totalEquity, h2]

/-- Witness for C6: an engine with no positions and capital 5 records
equity exactly 5. -/
theorem C6_equity_snapshot_witness :
    totalEquity (initEngine 5 0 0) = 5 := by
  have h := (C6_equity_snapshot (initEngine 5 0 0) ⟨0, 1, 1, 1⟩ []).2.2 (initEngine 5 0 0) rfl
  rw [h]; rfl

/-- C7 counterexample: when the period returns have zero standard
deviation the sharpe value is NOT the claimed 0.  A run with no orders
over three bars yields the constant equity curve 100, 100, 100, whose
period returns are NaN, 0, 0; the code computes
sqrt(252) * mean / std = 0 / 0, which is NaN, not 0. -/
theorem C7_zero_std_counterexample :
    (getPerformanceMetrics
        (runBacktest 100 0 0 0 [] [⟨0, 1, 1, 1⟩, ⟨1, 1, 1, 1⟩, ⟨2, 1, 1, 1⟩])).map
        Metrics.sharpe = some FloatRep.nan ∧
    ∀ s q, FloatRep.nan ≠ FloatRep.val s q := by
  constructor
  · have hcurve : (runBacktest 100 0 0 0 []
        [⟨0, 1, 1, 1⟩, ⟨1, 1, 1, 1⟩, ⟨2, 1, 1, 1⟩]).equity_curve
        = [(0, 100), (1, 100), (2, 100)] := by
      norm_num [runBacktest, processMarketData, processBar, updatePositions, processOrders,
                processOrdersAux, recordEquity, totalEquity, initEngine]
    have hsharpe : sharpeRatioOf [100, 100, 100] = FloatRep.nan := by
      norm_num [sharpeRatioOf, hasInfVal, validRets, validVals, finVal, pctChange,
                pctChangeAux, pctRet, retVar, retMean, List.filterMap_cons]
    simp [getPerformanceMetrics, equityVals, hcurve, hsharpe]
  · intro s q
    simp

/-- C7 amended: the metrics computation is total and never raises: an
empty equity curve yields the empty metrics dictionary and a non-empty
curve always yields a metrics record.  But when the standard deviation
of the period returns is zero or undefined (fewer than two valid
returns), the sharpe value is NaN or a signed infinity, not the claimed
0; only otherwise does it equal sqrt(252) * mean / std, represented
exactly as sign(mean) times the square root of 252 * mean^2 / variance. -/
theorem C7_metrics_never_raise (st : EngineState) (equity : List ℚ) :
    (st.equity_curve = [] → getPerformanceMetrics st = none) ∧
    (st.equity_curve ≠ [] → (getPerformanceMetrics st).isSome = true) ∧
    ((validRets equity).length < 2 ∨ retVar equity = 0 →
      sharpeRatioOf equity = FloatRep.nan ∨ sharpeRatioOf equity = FloatRep.inf
        ∨ sharpeRatioOf equity = FloatRep.neginf) ∧
    (hasInfVal (pctChange equity) = false → ¬ (validRets equity).length < 2 →
      retVar equity ≠ 0 →
      sharpeRatioOf equity
        = FloatRep.val
            (if retMean equity > 0 then 1 else if retMean equity < 0 then -1 else 0)
            (252 * (retMean equity) ^ 2 / retVar equity)) := by
  refine ⟨?_, ?_, ?_, ?_⟩
  · intro h; simp [getPerformanceMetrics, h]
  · intro h; simp [getPerformanceMetrics, List.isEmpty_iff, h]
  · intro h
    rw [sharpeRatioOf]
    by_cases h1 : hasInfVal (pctChange equity)
    · simp [h1]
    · by_cases h2 : (validRets equity).length < 2
      · simp [h1, h2]
      · have h3 : retVar equity = 0 := h.resolve_left h2
        by_cases h4 : retMean equity = 0
        · simp [h1, h2, h3, h4]
        · by_cases h5 : retMean equity > 0
          · simp [h1, h2, h3, h4, h5]
          · simp [h1, h2, h3, h4, h5]
  · intro h1 h2 h3
    simp [sharpeRatioOf, h1, h2, h3]

/-- Witness for C7: the metrics of a fresh engine (empty curve) are
empty, and the constant curve 100, 100, 100 has a sharpe value that is
NaN or infinite. -/
theorem C7_metrics_never_raise_witness :
    getPerformanceMetrics (initEngine 5 0 0) = none ∧
    (sharpeRatioOf [100, 100, 100] = FloatRep.nan
      ∨ sharpeRatioOf [100, 100, 100] = FloatRep.inf
      ∨ sharpeRatioOf [100, 100, 100] = FloatRep.neginf) := by
  constructor
  · exact (C7_metrics_never_raise (initEngine 5 0 0) []).1 rfl
  · exact (C7_metrics_never_raise (initEngine 5 0 0) [100, 100, 100]).2.2.1
      (Or.inr (by norm_num [retVar, retMean, validRets, validVals, finVal, pctChange,
                            pctChangeAux, pctRet, List.filterMap_cons]))

/-- C8: the claim states max_drawdown is the single number
max over i of (runningMax[i] - equity[i]) / runningMax[i], in the unit
interval.  The code instead reduces (cummax - equity) to its scalar
maximum BEFORE dividing by the cummax series, so the stored value is a
whole series.  On the equity curve 100, 50, 200 the code produces the
three-element series 1/2, 1/2, 1/4 while the specified formula gives
the single number 1/2 (the series third element 1/4 is not even the
specified ratio 0 at that bar). -/
theorem C8_max_drawdown_divergence :
    maxDrawdownOf [100, 50, 200]
      = [PFloat.fin (1/2), PFloat.fin (1/2), PFloat.fin (1/4)] ∧
    maxDrawdownSpec [100, 50, 200] = 1/2 ∧
    (maxDrawdownOf [100, 50, 200]).length = 3 := by
  refine ⟨?_, ?_, ?_⟩
  · norm_num [maxDrawdownOf, cummax, cummaxAux, seriesMax, pdivQ]
  · norm_num [maxDrawdownSpec, cummax, cummaxAux, seriesMax]
  · norm_num [maxDrawdownOf, cummax, cummaxAux, seriesMax, pdivQ]

/-! ### Timestamp erasure commutes with the engine (for determinism) -/

theorem executeMarketOrder_price_scrub (st : EngineState) (o : Order) (b : Bar) :
    marketPrice (scrubState st) (scrubOrd o) b = marketPrice st o b := rfl

theorem shouldExecuteLimitOrder_scrub (o : Order) (b : Bar) :
    shouldExecuteLimitOrder (scrubOrd o) b = shouldExecuteLimitOrder o b := rfl

theorem scrubOrd_order_type (o : Order) : (scrubOrd o).order_type = o.order_type := rfl

theorem executeOrder_scrub (st : EngineState) (o : Order) (price : ℚ) :
    executeOrder (scrubState st) (scrubOrd o) price = scrubState (executeOrder st o price) := by
  refine EngineState.ext ?_ ?_ ?_ ?_ ?_ ?_ ?_ ?_
  · rfl
  · rfl
  · rfl
  · rfl
  · rfl
  · rfl
  · simp only [scrubState, executeOrder_trades, List.map_append, List.map_cons, List.map_nil]
    simp [scrubOrd, scrubTrade]
  · rfl

theorem executeMarketOrder_scrub (st : EngineState) (o : Order) (b : Bar) :
    executeMarketOrder (scrubState st) (scrubOrd o) b
      = scrubState (executeMarketOrder st o b) := by
  rw [executeMarketOrder, executeMarketOrder, executeMarketOrder_price_scrub,
      executeOrder_scrub]

theorem executeLimitOrder_scrub (st : EngineState) (o : Order) (b : Bar) :
    executeLimitOrder (scrubState st) (scrubOrd o) b
      = scrubState (executeLimitOrder st o b) := by
  rw [executeLimitOrder, executeLimitOrder,
      show (scrubOrd o).price = o.price from rfl, executeOrder_scrub]

theorem processOrdersAux_scrub (b : Bar) (os : List Order) :
    ∀ (st : EngineState) (rem : List Order),
    processOrdersAux b (scrubState st) (os.map scrubOrd) (rem.map scrubOrd)
      = (scrubState (processOrdersAux b st os rem).1,
         (processOrdersAux b st os rem).2.map scrubOrd) := by
  induction os with
  | nil => intro st rem; simp [processOrdersAux]
  | cons o rest ih =>
    intro st rem
    cases ho : o.order_type with
    | market =>
      simp only [List.map_cons, processOrdersAux, scrubOrd_order_type, ho,
                 executeMarketOrder_scrub]
      exact ih (executeMarketOrder st o b) rem
    | limit =>
      by_cases ht : shouldExecuteLimitOrder o b
      · simp only [List.map_cons, processOrdersAux, scrubOrd_order_type, ho,
                   shouldExecuteLimitOrder_scrub, ht, if_pos, executeLimitOrder_scrub]
        exact ih (executeLimitOrder st o b) rem
      · simp only [List.map_cons, processOrdersAux, scrubOrd_order_type, ho,
                   shouldExecuteLimitOrder_scrub, ht, if_neg]
        have h := ih st (rem ++ [o])
        simpa [List.map_append] using h

theorem processOrders_scrub (st : EngineState) (b : Bar) :
    processOrders (scrubState st) b = scrubState (processOrders st b) := by
  have h := processOrdersAux_scrub b st.orders st []
  simp only [List.map_nil] at h
  simp only [processOrders]
  rw [show (scrubState st).orders = st.orders.map scrubOrd from rfl, h]
  rfl

theorem updatePositions_scrub (st : EngineState) (b : Bar) :
    updatePositions (scrubState st) b = scrubState (updatePositions st b) := rfl

theorem recordEquity_scrub (st : EngineState) (ts : ℕ) :
    recordEquity (scrubState st) ts = scrubState (recordEquity st ts) := rfl

theorem processBar_scrub (st : EngineState) (b : Bar) :
    processBar (scrubState st) b = scrubState (processBar st b) := by
  rw [processBar, processBar, updatePositions_scrub, processOrders_scrub, recordEquity_scrub]

theorem processMarketData_scrub (bars : List Bar) :
    ∀ st : EngineState,
    processMarketData (scrubState st) bars = scrubState (processMarketData st bars) := by
  induction bars with
  | nil => intro st; rfl
  | cons b rest ih =>
    intro st
    calc processMarketData (scrubState st) (b :: rest)
        = processMarketData (processBar (scrubState st) b) rest := rfl
      _ = processMarketData (scrubState (processBar st b)) rest := by rw [processBar_scrub]
      _ = scrubState (processMarketData (processBar st b) rest) := ih (processBar st b)
      _ = scrubState (processMarketData st (b :: rest)) := rfl

/-- C9 counterexample: two runs with identical configuration, identical
bar stream and identical order submissions produce different trade logs
when a submission carries no explicit timestamp: Order.__post_init__
stamps it with the wall-clock time (here modelled by the clock values 1
and 2), and that timestamp is copied into the trade record. -/
theorem C9_wallclock_counterexample :
    (runBacktest 1000 0 0 1 [⟨"A", .market, .buy, 1, 0, none⟩] [⟨7, 10, 10, 10⟩]).trades
      ≠ (runBacktest 1000 0 0 2 [⟨"A", .market, .buy, 1, 0, none⟩] [⟨7, 10, 10, 10⟩]).trades := by
  norm_num [runBacktest, processMarketData, processBar, updatePositions, processOrders,
            processOrdersAux, executeOrder, executeMarketOrder, marketPrice, recordEquity,
            totalEquity, initEngine, resolveOrder, lookupPos, setPos, delPos, Option.getD]

/-- C9 amended: the engine contains no randomness, and apart from the
wall-clock defaulting of missing order timestamps it is a pure function
of configuration, submissions and bars: two runs over identical inputs
produce identical whole states (hence identical trade logs) whenever
every submission carries an explicit timestamp, and identical equity
curves unconditionally (equity samples are stamped from bar timestamps
only). -/
theorem C9_determinism_up_to_wallclock (ic cr sl : ℚ) (c1 c2 : ℕ)
    (subs : List OrderSubmission) (bars : List Bar) :
    ((∀ s ∈ subs, s.timestamp ≠ none) →
      runBacktest ic cr sl c1 subs bars = runBacktest ic cr sl c2 subs bars) ∧
    (runBacktest ic cr sl c1 subs bars).equity_curve
      = (runBacktest ic cr sl c2 subs bars).equity_curve := by
  constructor
  · intro h
    have hmap : subs.map (resolveOrder c1) = subs.map (resolveOrder c2) := by
      apply List.map_congr_left
      intro s hs
      obtain ⟨t, ht⟩ := Option.ne_none_iff_exists.mp (h s hs)
      simp [resolveOrder, ← ht]
    rw [runBacktest, runBacktest, hmap]
  · have hscrub : ∀ c : ℕ,
        scrubState { initEngine ic cr sl with orders := subs.map (resolveOrder c) }
          = { initEngine ic cr sl with
              orders := subs.map (fun s => scrubOrd (resolveOrder 0 s)), trades := [] } := by
      intro c
      simp only [scrubState]
      refine EngineState.ext rfl rfl rfl rfl rfl ?_ rfl rfl
      simp only [List.map_map]
      rfl
    calc (runBacktest ic cr sl c1 subs bars).equity_curve
        = (scrubState (runBacktest ic cr sl c1 subs bars)).equity_curve := rfl
      _ = (processMarketData
            (scrubState { initEngine ic cr sl with orders := subs.map (resolveOrder c1) })
            bars).equity_curve := by
          rw [runBacktest, processMarketData_scrub]
      _ = (processMarketData
            (scrubState { initEngine ic cr sl with orders := subs.map (resolveOrder c2) })
            bars).equity_curve := by rw [hscrub c1, hscrub c2]
      _ = (scrubState (runBacktest ic cr sl c2 subs bars)).equity_curve := by
          rw [runBacktest, processMarketData_scrub]
      _ = (runBacktest ic cr sl c2 subs bars).equity_curve := rfl

/-- Witness for C9 amended: with one explicitly timestamped submission,
the clock values 1 and 2 produce identical runs. -/
theorem C9_determinism_up_to_wallclock_witness :
    runBacktest 1000 0 0 1 [⟨"A", .market, .buy, 1, 0, some 4⟩] [⟨7, 10, 10, 10⟩]
      = runBacktest 1000 0 0 2 [⟨"A", .market, .buy, 1, 0, some 4⟩] [⟨7, 10, 10, 10⟩] :=
  (C9_determinism_up_to_wallclock 1000 0 0 1 2
    [⟨"A", .market, .buy, 1, 0, some 4⟩] [⟨7, 10, 10, 10⟩]).1
    (by intro s hs; simp at hs; subst hs; simp)

end A2E
